import Mathlib

/-! Reference-count based cache replacement policy.

A shallow embedding of the two replacement policies of the repository:

* `src/random_rp_RRC.cc`: the fixed-threshold variant (namespace `RandomRRC`),
* `src/random_rp.cc`: the adaptive variant with the shared feedback
  counters (namespace `Random`).

Machine integers are natural numbers; every `unsigned` update is reduced
modulo `2 ^ 32`.  A `Tick` is only stored and compared, never computed with,
so it is a plain natural number.  The single-precision values of the adaptive
variant are modelled by `F32`.  The diagnostic lines written to `std::cout`
are not part of the model.
-/

/-! ## Single-precision values -/

/-- Values of the C++ type `float` (IEEE binary32) that the policy can
produce: the non-negative finite values `mant * 2 ^ exp`, kept normalised
(`2 ^ 23 ≤ mant < 2 ^ 24`, or `mant = 0` and `exp = 0`), plus infinity and
not-a-number for a division by zero. -/
inductive F32 where
  | fin (mant : Nat) (exp : Int)
  | inf
  | nan
deriving DecidableEq, Repr

namespace F32

/-- Test `d * 2 ^ l ≤ n`, that is `2 ^ l ≤ n / d`, for an integer `l`. -/
def geScaled (n d : Nat) (l : Int) : Bool :=
  if 0 ≤ l then decide (d * 2 ^ l.toNat ≤ n) else decide (d ≤ n * 2 ^ (-l).toNat)

/-- The binary logarithm rounded down, by repeated halving (`fuel` bounds
the number of halvings). -/
def log2Aux : Nat → Nat → Nat
  | 0, _ => 0
  | fuel + 1, n => if n < 2 then 0 else log2Aux fuel (n / 2) + 1

/-- The position of the leading bit of `n`: `2 ^ log2 n ≤ n < 2 ^ (log2 n + 1)`
for `n > 0`. -/
def log2 (n : Nat) : Nat := log2Aux n n

/-- The binary32 value nearest to the rational `n / d`, ties to even
(the default rounding mode).  The exponent range is not bounded here: the
operands of the policy come from 32-bit counters, whose quotients stay
inside the normal range of binary32. -/
def round (n d : Nat) : F32 :=
  if d = 0 then (if n = 0 then nan else inf)
  else if n = 0 then fin 0 0
  else
    let l : Int := (log2 n : Int) - (log2 d : Int)
    let e : Int := if geScaled n d l then l else l - 1
    let sh : Int := 23 - e
    let num : Nat := if 0 ≤ sh then n * 2 ^ sh.toNat else n
    let den : Nat := if 0 ≤ sh then d else d * 2 ^ (-sh).toNat
    let q : Nat := num / den
    let r : Nat := num % den
    let q1 : Nat := if den < 2 * r ∨ (2 * r = den ∧ q % 2 = 1) then q + 1 else q
    if q1 = 2 ^ 24 then fin (2 ^ 23) (e - 22) else fin q1 (e - 23)

/-- The conversion `static_cast<float>(u)` of an unsigned counter. -/
def ofUnsigned (u : Nat) : F32 := round u 1

/-- The literal `0.0`. -/
def zero : F32 := fin 0 0

/-- The literal `0.99` converted to `float`: `16609444 * 2 ^ (-24)`,
the binary32 value nearest to 99/100. -/
def c099 : F32 := fin 16609444 (-24)

/-- Single-precision division, correctly rounded. -/
def div : F32 → F32 → F32
  | fin m1 e1, fin m2 e2 =>
    match round m1 m2 with
    | fin 0 _ => fin 0 0
    | fin m e => fin m (e + e1 - e2)
    | x => x
  | fin _ _, inf => fin 0 0
  | inf, fin _ _ => inf
  | _, _ => nan

/-- The comparison `a < b` of two single-precision values (false as soon as
one of them is not a number). -/
def lt : F32 → F32 → Bool
  | fin m1 e1, fin m2 e2 =>
    if m1 = 0 then decide (m2 ≠ 0)
    else if m2 = 0 then false
    else decide (e1 < e2 ∨ (e1 = e2 ∧ m1 < m2))
  | fin _ _, inf => true
  | _, _ => false

end F32

/-! ## Per-line state and candidates -/

/-- Modelled from the spec: the declaration of `RandomReplData`
(`random_rp.hh`) is not among the sources.  The per-line state is a
reference count, an unsigned (32-bit) counter, and the last-touch time
stamp, a `Tick` (a 64-bit unsigned integer that the policy only stores and
compares). -/
structure RandomReplData where
  refCount : Nat
  lastTouchTick : Nat
deriving DecidableEq, Repr

/-- A replacement candidate: the cache entry (`ReplaceableEntry*`), known by
its address `addr`, with the replacement data it points to. -/
structure ReplaceableEntry where
  addr : Nat
  replacementData : RandomReplData
deriving DecidableEq, Repr

/-- The per-line state of a fresh slot (`instantiateEntry`): both fields
zero. -/
def instantiateEntry : RandomReplData := { refCount := 0, lastTouchTick := 0 }

/-- One step of the victim scan: the candidate replaces the current victim
when its time stamp is strictly smaller. -/
def scanStep (victim candidate : ReplaceableEntry) : ReplaceableEntry :=
  if candidate.replacementData.lastTouchTick < victim.replacementData.lastTouchTick then
    candidate
  else
    victim

/-! ## The fixed-threshold variant (`random_rp_RRC.cc`) -/

namespace RandomRRC

/-- `Random::invalidate`: both fields are set to zero. -/
def invalidate (_replacement_data : RandomReplData) : RandomReplData :=
  { refCount := 0, lastTouchTick := 0 }

/-- `Random::touch`: the reference count is incremented, then the line is
moved to the clock value when the count exceeds 14 and to 1 otherwise. -/
def touch (replacement_data : RandomReplData) (curTick : Nat) : RandomReplData :=
  let refCount := (replacement_data.refCount + 1) % 2 ^ 32
  if refCount > 14 then
    { refCount := refCount, lastTouchTick := curTick }
  else
    { refCount := refCount, lastTouchTick := 1 }

/-- `Random::reset`: called when the entry is inserted. -/
def reset (_replacement_data : RandomReplData) : RandomReplData :=
  { refCount := 1, lastTouchTick := 1 }

/-- `Random::getVictim`: the assertion fails on an empty candidate vector
(`none`); otherwise the scan starts from `candidates[0]` and visits every
candidate in order. -/
def getVictim (candidates : List ReplaceableEntry) : Option ReplaceableEntry :=
  match candidates with
  | [] => none
  | c0 :: _ => some (candidates.foldl scanStep c0)

/-- A run of touches on one line, one clock value per touch, in order. -/
def touches (replacement_data : RandomReplData) (clocks : List Nat) : RandomReplData :=
  clocks.foldl touch replacement_data

end RandomRRC

/-! ## The adaptive variant (`random_rp.cc`) -/

/-- The static members of the adaptive policy, shared by every cache. -/
structure Shared where
  found_miss : Nat
  found_access : Nat
  roi_threshold : Nat
  init_flag : Nat
  last_miss_rate : F32
deriving DecidableEq, Repr

namespace Random

/-- The initial values of the static members. -/
def init : Shared :=
  { found_miss := 0, found_access := 0, roi_threshold := 1, init_flag := 0,
    last_miss_rate := F32.zero }

/-- `Random::invalidate`: both fields are set to zero; no static member is
used. -/
def invalidate (s : Shared) (_replacement_data : RandomReplData) : Shared × RandomReplData :=
  (s, { refCount := 0, lastTouchTick := 0 })

/-- `Random::touch`: as in the fixed variant with `roi_threshold` for the
constant, then `found_access++`. -/
def touch (s : Shared) (replacement_data : RandomReplData) (curTick : Nat) :
    Shared × RandomReplData :=
  let refCount := (replacement_data.refCount + 1) % 2 ^ 32
  let d : RandomReplData :=
    if refCount > s.roi_threshold then
      { refCount := refCount, lastTouchTick := curTick }
    else
      { refCount := refCount, lastTouchTick := 1 }
  ({ s with found_access := (s.found_access + 1) % 2 ^ 32 }, d)

/-- The first conditional of `Random::reset`: the cold start once the
access counter has passed 10,000,000 with the flag not yet set, one more
access otherwise. -/
def resetInit (s : Shared) : Shared :=
  if s.init_flag ≠ 513 ∧ s.found_access > 10000000 then
    { found_access := 1, found_miss := 0, roi_threshold := 1, init_flag := 513,
      last_miss_rate := F32.c099 }
  else
    { s with found_access := (s.found_access + 1) % 2 ^ 32 }

/-- The miss rate `static_cast<float>(found_miss)/static_cast<float>(found_access)`. -/
def missRate (s : Shared) : F32 :=
  F32.div (F32.ofUnsigned s.found_miss) (F32.ofUnsigned s.found_access)

/-- The threshold after the comparison of the window's miss rate with the
last one (`roi_threshold + 4` and `roi_threshold - 4` in unsigned
arithmetic). -/
def adjust (found_miss_rate last_miss_rate : F32) (roi_threshold : Nat) : Nat :=
  if F32.lt found_miss_rate last_miss_rate then
    if roi_threshold < 22 then (roi_threshold + 4) % 2 ^ 32 else roi_threshold
  else
    if roi_threshold > 1 then (roi_threshold + 2 ^ 32 - 4) % 2 ^ 32 else roi_threshold

/-- The second conditional of `Random::reset`: the end of a window. -/
def resetWindow (s : Shared) : Shared :=
  if s.init_flag = 513 ∧ s.found_access > 10000000 then
    let found_miss_rate := missRate s
    { s with
      roi_threshold := adjust found_miss_rate s.last_miss_rate s.roi_threshold,
      last_miss_rate := found_miss_rate,
      found_access := 0,
      found_miss := 0 }
  else
    s

/-- `Random::reset`: the line gets reference count 1 and time stamp 1, then
the two conditionals on the static members run in order. -/
def reset (s : Shared) (_replacement_data : RandomReplData) : Shared × RandomReplData :=
  (resetWindow (resetInit s), { refCount := 1, lastTouchTick := 1 })

/-- `Random::getVictim`: `found_miss++`, then the assertion and the scan of
the fixed variant.  A failed assertion ends the program: `none`. -/
def getVictim (s : Shared) (candidates : List ReplaceableEntry) :
    Option (Shared × ReplaceableEntry) :=
  let s1 := { s with found_miss := (s.found_miss + 1) % 2 ^ 32 }
  match candidates with
  | [] => none
  | c0 :: _ => some (s1, candidates.foldl scanStep c0)

/-- A call of the host into the adaptive policy. -/
inductive Call where
  | touch (replacement_data : RandomReplData) (curTick : Nat)
  | reset (replacement_data : RandomReplData)
  | invalidate (replacement_data : RandomReplData)
  | getVictim (candidates : List ReplaceableEntry)

/-- The static members after one call; `none` when the call aborts. -/
def call (s : Shared) : Call → Option Shared
  | .touch d t => some (touch s d t).1
  | .reset d => some (reset s d).1
  | .invalidate d => some (invalidate s d).1
  | .getVictim cs => (getVictim s cs).map Prod.fst

/-- The static members after a sequence of calls. -/
def run (s : Shared) : List Call → Option Shared
  | [] => some s
  | c :: cs => (call s c).bind (fun s1 => run s1 cs)

/-- The states of the static members that some finite sequence of calls
produces from the initial values. -/
def Reachable (s : Shared) : Prop := ∃ calls, run init calls = some s

/-- The flag `init_flag == 513`: the warm-up window is over. -/
def warmedUp (s : Shared) : Prop := s.init_flag = 513

instance (s : Shared) : Decidable (warmedUp s) := by
  unfold warmedUp
  exact inferInstance

/-- The operand `found_access` of the division in `Random::reset`, when the
call reaches the division: the value that the second conditional has just
tested. -/
def resetDivisor (s : Shared) : Option Nat :=
  let s1 := resetInit s
  if s1.init_flag = 513 ∧ s1.found_access > 10000000 then some s1.found_access else none

/-- The static members right after the cold start. -/
def coldStart : Shared :=
  { found_miss := 0, found_access := 1, roi_threshold := 1, init_flag := 513,
    last_miss_rate := F32.c099 }

/-- A run of `n` hits: `n` calls of `touch`. -/
def touchCalls (n : Nat) : List Call :=
  List.replicate n (Call.touch instantiateEntry 2)

/-- A run of `n` misses in a one-line set: each is a victim selection
followed by the install on the victim. -/
def missCalls : Nat → List Call
  | 0 => []
  | n + 1 =>
    Call.getVictim [⟨0, instantiateEntry⟩] :: Call.reset instantiateEntry :: missCalls n

/-- A measurement window: hits, then misses, the last of which ends the
window. -/
def window (hits misses : Nat) : List Call :=
  touchCalls hits ++ missCalls misses

/-- The warm-up followed by five windows of 10,000,001 accesses with 6, 5, 4,
3 and 2 misses, then the hits and the victim selection of a sixth window
with one miss: every call of that window but its closing install. -/
def climbOpen : List Call :=
  window 10000001 1 ++ window 9999994 6 ++ window 9999996 5 ++ window 9999997 4 ++
    window 9999998 3 ++ window 9999999 2 ++
    (touchCalls 10000000 ++ [Call.getVictim [⟨0, instantiateEntry⟩]])

/-- The calls of `climbOpen` followed by the install that closes the sixth
window. -/
def climb : List Call :=
  climbOpen ++ [Call.reset instantiateEntry]

/-- An access of a host that keeps the call order: a hit (`touch`), an
invalidation, or a miss, that is a victim selection immediately followed by
the install. -/
inductive Access where
  | hit (replacement_data : RandomReplData) (curTick : Nat)
  | invalidate (replacement_data : RandomReplData)
  | miss (candidates : List ReplaceableEntry) (replacement_data : RandomReplData)

/-- The calls that an access makes. -/
def Access.calls : Access → List Call
  | .hit d t => [Call.touch d t]
  | .invalidate d => [Call.invalidate d]
  | .miss cs d => [Call.getVictim cs, Call.reset d]

/-- The calls of a sequence of accesses. -/
def accessCalls : List Access → List Call
  | [] => []
  | a :: as => a.calls ++ accessCalls as

/-- The access increments `found_access` past `2 ^ 32 - 1`: a hit always
increments, a miss increments unless its install takes the cold start. -/
def Access.wraps (s : Shared) : Access → Bool
  | .hit _ _ => decide (2 ^ 32 ≤ s.found_access + 1)
  | .invalidate _ => false
  | .miss _ _ =>
    decide (¬ (s.init_flag ≠ 513 ∧ s.found_access > 10000000) ∧ 2 ^ 32 ≤ s.found_access + 1)

/-- No access of the sequence, run from `s`, wraps `found_access`. -/
def noWrap (s : Shared) : List Access → Bool
  | [] => true
  | a :: as =>
    !(a.wraps s) &&
      (match run s a.calls with
       | some s1 => noWrap s1 as
       | none => true)

/-- One miss, then `2 ^ 32 - 1` hits. -/
def wrapAccesses : List Access :=
  Access.miss [⟨0, instantiateEntry⟩] instantiateEntry ::
    List.replicate 4294967295 (Access.hit instantiateEntry 2)

end Random

/-! ## Known single-precision values -/

/-- The rounding agrees with binary32 on known values: 1/3 is `0x3EAAAAAB`,
99/100 is the constant `0.99f`, 16777217 is a tie that goes to the even
significand, 16777219 rounds up, and the largest 32-bit counter value rounds
to `2 ^ 32`. -/
theorem F32.round_known_values :
    F32.div (F32.ofUnsigned 1) (F32.ofUnsigned 3) = F32.fin 11184811 (-25) ∧
      F32.div (F32.ofUnsigned 99) (F32.ofUnsigned 100) = F32.c099 ∧
      F32.ofUnsigned 16777217 = F32.fin 8388608 1 ∧
      F32.ofUnsigned 16777219 = F32.fin 8388610 1 ∧
      F32.ofUnsigned 4294967295 = F32.fin 8388608 9 ∧
      F32.ofUnsigned 10000003 = F32.fin 10000003 0 := by
  decide

/-! ## The victim scan -/

theorem scanStep_eq_or (v c : ReplaceableEntry) : scanStep v c = v ∨ scanStep v c = c := by
  unfold scanStep
  split
  · exact Or.inr rfl
  · exact Or.inl rfl

theorem scanStep_le_left (v c : ReplaceableEntry) :
    (scanStep v c).replacementData.lastTouchTick ≤ v.replacementData.lastTouchTick := by
  unfold scanStep
  split
  · omega
  · exact Nat.le_refl _

theorem scanStep_le_right (v c : ReplaceableEntry) :
    (scanStep v c).replacementData.lastTouchTick ≤ c.replacementData.lastTouchTick := by
  unfold scanStep
  split
  · exact Nat.le_refl _
  · omega

/-- The scan ends on its starting victim or on one of the visited
candidates. -/
theorem foldl_scanStep_mem (cs : List ReplaceableEntry) (v : ReplaceableEntry) :
    cs.foldl scanStep v = v ∨ cs.foldl scanStep v ∈ cs := by
  induction cs generalizing v with
  | nil => exact Or.inl rfl
  | cons c cs ih =>
    rw [List.foldl_cons]
    rcases ih (scanStep v c) with h | h
    · rcases scanStep_eq_or v c with h1 | h1
      · exact Or.inl (h.trans h1)
      · refine Or.inr ?_
        rw [h, h1]
        exact List.mem_cons_self _ _
    · exact Or.inr (List.mem_cons_of_mem _ h)

/-- The time stamp of the scan's result is at most that of the starting
victim. -/
theorem foldl_scanStep_le_start (cs : List ReplaceableEntry) (v : ReplaceableEntry) :
    (cs.foldl scanStep v).replacementData.lastTouchTick ≤ v.replacementData.lastTouchTick := by
  induction cs generalizing v with
  | nil => exact Nat.le_refl _
  | cons c cs ih =>
    rw [List.foldl_cons]
    exact Nat.le_trans (ih _) (scanStep_le_left v c)

/-- The time stamp of the scan's result is at most that of every visited
candidate. -/
theorem foldl_scanStep_le (cs : List ReplaceableEntry) (v c : ReplaceableEntry)
    (hc : c ∈ cs) :
    (cs.foldl scanStep v).replacementData.lastTouchTick ≤ c.replacementData.lastTouchTick := by
  induction cs generalizing v with
  | nil => cases hc
  | cons c1 cs ih =>
    rw [List.foldl_cons]
    rcases List.mem_cons.mp hc with h | h
    · subst h
      exact Nat.le_trans (foldl_scanStep_le_start cs _) (scanStep_le_right v c)
    · exact ih _ h

/-- A victim whose time stamp is at most that of every later candidate is
kept to the end of the scan. -/
theorem foldl_scanStep_keep (cs : List ReplaceableEntry) (v : ReplaceableEntry)
    (h : ∀ c ∈ cs, v.replacementData.lastTouchTick ≤ c.replacementData.lastTouchTick) :
    cs.foldl scanStep v = v := by
  induction cs with
  | nil => rfl
  | cons c cs ih =>
    rw [List.foldl_cons]
    have hc : scanStep v c = v := by
      unfold scanStep
      have := h c (List.mem_cons_self _ _)
      rw [if_neg (by omega)]
    rw [hc]
    exact ih (fun c1 h1 => h c1 (List.mem_cons_of_mem _ h1))

/-- The scan over `pre ++ v :: post` ends on `v` when every candidate before
`v` has a strictly larger time stamp and no candidate after it a smaller
one. -/
theorem foldl_scanStep_split (pre post : List ReplaceableEntry) (v : ReplaceableEntry)
    (hpre : ∀ c ∈ pre, v.replacementData.lastTouchTick < c.replacementData.lastTouchTick)
    (hpost : ∀ c ∈ post, v.replacementData.lastTouchTick ≤ c.replacementData.lastTouchTick) :
    (pre ++ v :: post).foldl scanStep ((pre ++ v :: post).headD v) = v := by
  rw [List.foldl_append, List.foldl_cons]
  have hw : scanStep (pre.foldl scanStep ((pre ++ v :: post).headD v)) v = v := by
    cases pre with
    | nil =>
      simp [scanStep]
    | cons c0 pre =>
      have hmem : (c0 :: pre).foldl scanStep c0 ∈ c0 :: pre := by
        rcases foldl_scanStep_mem (c0 :: pre) c0 with h | h
        · rw [h]
          exact List.mem_cons_self _ _
        · exact h
      have hlt := hpre _ hmem
      simp only [List.cons_append, List.headD_cons]
      exact if_pos hlt
  rw [hw]
  exact foldl_scanStep_keep post v hpost

theorem RandomRRC.getVictim_eq_scan (cands : List ReplaceableEntry) (v : ReplaceableEntry)
    (h : cands ≠ []) :
    RandomRRC.getVictim cands = some (cands.foldl scanStep (cands.headD v)) := by
  cases cands with
  | nil => exact absurd rfl h
  | cons c cs => rfl

theorem Random.getVictim_shared_eq_scan (s : Shared) (cands : List ReplaceableEntry)
    (v : ReplaceableEntry) (h : cands ≠ []) :
    Random.getVictim s cands =
      some ({ s with found_miss := (s.found_miss + 1) % 2 ^ 32 },
        cands.foldl scanStep (cands.headD v)) := by
  cases cands with
  | nil => exact absurd rfl h
  | cons c cs => rfl

/-- The scan of a non-empty vector returns a candidate of the vector whose
time stamp is minimal. -/
theorem scan_min (cands : List ReplaceableEntry) (v : ReplaceableEntry) (h : cands ≠ []) :
    cands.foldl scanStep (cands.headD v) ∈ cands ∧
      ∀ c ∈ cands,
        (cands.foldl scanStep (cands.headD v)).replacementData.lastTouchTick ≤
          c.replacementData.lastTouchTick := by
  cases cands with
  | nil => exact absurd rfl h
  | cons c0 cs =>
    refine ⟨?_, fun c hc => foldl_scanStep_le _ _ c hc⟩
    rcases foldl_scanStep_mem (c0 :: cs) c0 with h1 | h1
    · simp only [List.headD_cons]
      rw [h1]
      exact List.mem_cons_self _ _
    · exact h1

/-! ## Victim selection: the contract of `getVictim` -/

/-- C1: in both variants `getVictim` on a non-empty candidate vector returns
a member of the vector whose `lastTouchTick` is less than or equal to that of
every candidate; in particular the victim has time stamp 0 as soon as some
candidate has. -/
theorem getVictim_member_min (cands : List ReplaceableEntry) (h : cands ≠ []) :
    (∃ v, RandomRRC.getVictim cands = some v ∧ v ∈ cands ∧
        (∀ c ∈ cands, v.replacementData.lastTouchTick ≤ c.replacementData.lastTouchTick) ∧
        ((∃ c ∈ cands, c.replacementData.lastTouchTick = 0) →
          v.replacementData.lastTouchTick = 0)) ∧
      ∀ s : Shared, ∃ s1 v, Random.getVictim s cands = some (s1, v) ∧ v ∈ cands ∧
        (∀ c ∈ cands, v.replacementData.lastTouchTick ≤ c.replacementData.lastTouchTick) ∧
        ((∃ c ∈ cands, c.replacementData.lastTouchTick = 0) →
          v.replacementData.lastTouchTick = 0) := by
  obtain ⟨c0, hc0⟩ : ∃ c0, c0 ∈ cands := List.exists_mem_of_ne_nil cands h
  have hmin := scan_min cands c0 h
  have hzero : (∃ c ∈ cands, c.replacementData.lastTouchTick = 0) →
      (cands.foldl scanStep (cands.headD c0)).replacementData.lastTouchTick = 0 := by
    rintro ⟨c, hc, hc1⟩
    have := hmin.2 c hc
    omega
  refine ⟨⟨_, RandomRRC.getVictim_eq_scan cands c0 h, hmin.1, hmin.2, hzero⟩, fun s => ?_⟩
  exact ⟨_, _, Random.getVictim_shared_eq_scan s cands c0 h, hmin.1, hmin.2, hzero⟩

/-- C1, on the candidates with time stamps 0, 1, 1, 5. -/
theorem getVictim_member_min_witness :
    (∃ v, RandomRRC.getVictim [⟨100, ⟨0, 0⟩⟩, ⟨101, ⟨1, 1⟩⟩, ⟨102, ⟨3, 1⟩⟩, ⟨103, ⟨20, 5⟩⟩] = some v ∧
        v ∈ [⟨100, ⟨0, 0⟩⟩, ⟨101, ⟨1, 1⟩⟩, ⟨102, ⟨3, 1⟩⟩, (⟨103, ⟨20, 5⟩⟩ : ReplaceableEntry)] ∧
        (∀ c ∈ [⟨100, ⟨0, 0⟩⟩, ⟨101, ⟨1, 1⟩⟩, ⟨102, ⟨3, 1⟩⟩, (⟨103, ⟨20, 5⟩⟩ : ReplaceableEntry)],
          v.replacementData.lastTouchTick ≤ c.replacementData.lastTouchTick) ∧
        ((∃ c ∈ [⟨100, ⟨0, 0⟩⟩, ⟨101, ⟨1, 1⟩⟩, ⟨102, ⟨3, 1⟩⟩, (⟨103, ⟨20, 5⟩⟩ : ReplaceableEntry)],
            c.replacementData.lastTouchTick = 0) →
          v.replacementData.lastTouchTick = 0)) ∧
      RandomRRC.getVictim [⟨100, ⟨0, 0⟩⟩, ⟨101, ⟨1, 1⟩⟩, ⟨102, ⟨3, 1⟩⟩, ⟨103, ⟨20, 5⟩⟩] =
        some ⟨100, ⟨0, 0⟩⟩ :=
  ⟨(getVictim_member_min [⟨100, ⟨0, 0⟩⟩, ⟨101, ⟨1, 1⟩⟩, ⟨102, ⟨3, 1⟩⟩, ⟨103, ⟨20, 5⟩⟩]
      (by decide)).1, by decide⟩

/-- C2: in both variants, when candidate `i` has the minimal `lastTouchTick`
of the vector and every candidate before it has a strictly larger one,
`getVictim` returns candidate `i`: among the candidates that tie at the
minimum the earliest in input order is returned. -/
theorem getVictim_first_min (cands : List ReplaceableEntry) (i : Nat)
    (hi : i < cands.length)
    (hmin : ∀ c ∈ cands,
      cands[i].replacementData.lastTouchTick ≤ c.replacementData.lastTouchTick)
    (hfirst : ∀ j (hj : j < i),
      cands[i].replacementData.lastTouchTick < cands[j].replacementData.lastTouchTick) :
    RandomRRC.getVictim cands = some cands[i] ∧
      ∀ s : Shared, (Random.getVictim s cands).map Prod.snd = some cands[i] := by
  have hne : cands ≠ [] := by
    intro h0
    rw [h0] at hi
    exact Nat.not_lt_zero _ hi
  have hsplit : cands = cands.take i ++ cands[i] :: cands.drop (i + 1) := by
    rw [← List.drop_eq_getElem_cons hi, List.take_append_drop]
  have hpre : ∀ c ∈ cands.take i,
      cands[i].replacementData.lastTouchTick < c.replacementData.lastTouchTick := by
    intro c hc
    obtain ⟨j, hj, rfl⟩ := List.getElem_of_mem hc
    have hji : j < i := by
      have := List.length_take_le i cands
      omega
    rw [List.getElem_take]
    exact hfirst j hji
  have hpost : ∀ c ∈ cands.drop (i + 1),
      cands[i].replacementData.lastTouchTick ≤ c.replacementData.lastTouchTick :=
    fun c hc => hmin c (List.mem_of_mem_drop hc)
  have hscan : cands.foldl scanStep (cands.headD cands[i]) = cands[i] := by
    have := foldl_scanStep_split _ _ cands[i] hpre hpost
    rw [← hsplit] at this
    exact this
  refine ⟨?_, fun s => ?_⟩
  · rw [RandomRRC.getVictim_eq_scan cands cands[i] hne, hscan]
  · rw [Random.getVictim_shared_eq_scan s cands cands[i] hne, hscan]
    rfl

/-- C2, on the time stamps 5, 1, 7, 1: the minimum 1 is met at the indices 1
and 3, and the candidate at index 1 is returned. -/
theorem getVictim_first_min_witness :
    RandomRRC.getVictim [⟨100, ⟨20, 5⟩⟩, ⟨101, ⟨1, 1⟩⟩, ⟨102, ⟨30, 7⟩⟩, ⟨103, ⟨1, 1⟩⟩] =
        some ⟨101, ⟨1, 1⟩⟩ ∧
      ∀ s : Shared,
        (Random.getVictim s
            [⟨100, ⟨20, 5⟩⟩, ⟨101, ⟨1, 1⟩⟩, ⟨102, ⟨30, 7⟩⟩, ⟨103, ⟨1, 1⟩⟩]).map Prod.snd =
          some ⟨101, ⟨1, 1⟩⟩ :=
  getVictim_first_min [⟨100, ⟨20, 5⟩⟩, ⟨101, ⟨1, 1⟩⟩, ⟨102, ⟨30, 7⟩⟩, ⟨103, ⟨1, 1⟩⟩] 1
    (by decide) (by decide) (by decide)

/-- C3: in both variants `getVictim` on an empty candidate vector fails the
assertion and returns no victim, and it returns a victim exactly when the
vector is non-empty. -/
theorem getVictim_empty_fails :
    RandomRRC.getVictim [] = none ∧
      (∀ s : Shared, Random.getVictim s [] = none) ∧
      (∀ cands, (RandomRRC.getVictim cands).isSome = true ↔ cands ≠ []) ∧
      (∀ (s : Shared) cands, (Random.getVictim s cands).isSome = true ↔ cands ≠ []) := by
  refine ⟨rfl, fun _ => rfl, fun cands => ?_, fun s cands => ?_⟩
  · cases cands <;> simp [RandomRRC.getVictim]
  · cases cands <;> simp [Random.getVictim]

/-! ## Install and touch -/

/-- C4: in both variants, whatever the line and the static members held
before, the line has `refCount == 1` and `lastTouchTick == 1` right after
`reset` (install). -/
theorem reset_sets_one (d : RandomReplData) (s : Shared) :
    (RandomRRC.reset d).refCount = 1 ∧ (RandomRRC.reset d).lastTouchTick = 1 ∧
      (Random.reset s d).2.refCount = 1 ∧ (Random.reset s d).2.lastTouchTick = 1 :=
  ⟨rfl, rfl, rfl, rfl⟩

/-- C5: for a line with reference count `r` (no overflow of the counter)
and a clock value `now`, `touch` yields `refCount == r + 1` and
`lastTouchTick == now` if `r + 1` exceeds the threshold (14 in the fixed
variant, `roi_threshold` in the adaptive one), otherwise
`lastTouchTick == 1`; in the adaptive variant `found_access` is incremented
by one (as an unsigned counter) and the other static members are
unchanged. -/
theorem touch_admission (d : RandomReplData) (now : Nat) (hr : d.refCount + 1 < 2 ^ 32) :
    (RandomRRC.touch d now).refCount = d.refCount + 1 ∧
      (RandomRRC.touch d now).lastTouchTick = (if d.refCount + 1 > 14 then now else 1) ∧
      ∀ s : Shared,
        (Random.touch s d now).2.refCount = d.refCount + 1 ∧
        (Random.touch s d now).2.lastTouchTick =
          (if d.refCount + 1 > s.roi_threshold then now else 1) ∧
        (Random.touch s d now).1.found_access = (s.found_access + 1) % 2 ^ 32 ∧
        (s.found_access + 1 < 2 ^ 32 →
          (Random.touch s d now).1.found_access = s.found_access + 1) ∧
        (Random.touch s d now).1.found_miss = s.found_miss ∧
        (Random.touch s d now).1.roi_threshold = s.roi_threshold ∧
        (Random.touch s d now).1.last_miss_rate = s.last_miss_rate ∧
        (Random.touch s d now).1.init_flag = s.init_flag := by
  have hmod : (d.refCount + 1) % 2 ^ 32 = d.refCount + 1 := Nat.mod_eq_of_lt hr
  refine ⟨?_, ?_, fun s => ⟨?_, ?_, rfl, fun ha => Nat.mod_eq_of_lt ha, rfl, rfl, rfl, rfl⟩⟩
  · unfold RandomRRC.touch
    simp only [hmod]
    split <;> rfl
  · unfold RandomRRC.touch
    simp only [hmod]
    split <;> rfl
  · unfold Random.touch
    simp only [hmod]
    split <;> rfl
  · unfold Random.touch
    simp only [hmod]
    split <;> rfl

/-- C5, on a line with reference count 14 touched at clock 700, with the
adaptive threshold at 17. -/
theorem touch_admission_witness :
    (RandomRRC.touch ⟨14, 1⟩ 700).refCount = 15 ∧
      (RandomRRC.touch ⟨14, 1⟩ 700).lastTouchTick = 700 ∧
      (Random.touch ⟨3, 8, 17, 513, F32.c099⟩ ⟨14, 1⟩ 700).2.lastTouchTick = 1 ∧
      (Random.touch ⟨3, 8, 17, 513, F32.c099⟩ ⟨14, 1⟩ 700).1.found_access = 9 :=
  have h := touch_admission ⟨14, 1⟩ 700 (by decide)
  ⟨h.1, h.2.1, (h.2.2 ⟨3, 8, 17, 513, F32.c099⟩).2.1,
    (h.2.2 ⟨3, 8, 17, 513, F32.c099⟩).2.2.2.1 (by decide)⟩

/-- One touch of the fixed variant, short of an overflow of the counter. -/
theorem touch_step_refCount (d : RandomReplData) (now : Nat) (hr : d.refCount + 1 < 2 ^ 32) :
    (RandomRRC.touch d now).refCount = d.refCount + 1 := by
  unfold RandomRRC.touch
  simp only [Nat.mod_eq_of_lt hr]
  split <;> rfl

/-- The time stamp after one touch of the fixed variant, short of an
overflow of the counter. -/
theorem touch_step_tick (d : RandomReplData) (now : Nat) (hr : d.refCount + 1 < 2 ^ 32) :
    (RandomRRC.touch d now).lastTouchTick = (if d.refCount + 1 > 14 then now else 1) := by
  unfold RandomRRC.touch
  simp only [Nat.mod_eq_of_lt hr]
  split <;> rfl

/-- One more touch at the end of a run of touches. -/
theorem RandomRRC.touches_concat (d : RandomReplData) (pre : List Nat) (c : Nat) :
    RandomRRC.touches d (pre ++ [c]) = RandomRRC.touch (RandomRRC.touches d pre) c := by
  unfold RandomRRC.touches
  rw [List.foldl_append]
  rfl

/-- The reference count after a run of touches, short of an overflow. -/
theorem RandomRRC.touches_refCount (d : RandomReplData) (clocks : List Nat)
    (h : d.refCount + clocks.length < 2 ^ 32) :
    (RandomRRC.touches d clocks).refCount = d.refCount + clocks.length := by
  induction clocks using List.reverseRecOn with
  | nil => rfl
  | append_singleton pre c ih =>
    rw [List.length_append, List.length_singleton] at h
    have h1 := ih (by omega)
    have h2 : (RandomRRC.touches d pre).refCount + 1 < 2 ^ 32 := by omega
    rw [RandomRRC.touches_concat, (touch_step_refCount _ c h2), h1, List.length_append,
      List.length_singleton]
    omega

/-- The line after an install and a run of touches whose last clock value
is `c`: the reference count is the number of touches plus one, and the time
stamp is `c` from the fourteenth touch on and 1 before. -/
theorem RandomRRC.touches_after_reset (d : RandomReplData) (pre : List Nat) (c : Nat)
    (h : pre.length + 2 < 2 ^ 32) :
    (RandomRRC.touches (RandomRRC.reset d) (pre ++ [c])).refCount = pre.length + 2 ∧
      (RandomRRC.touches (RandomRRC.reset d) (pre ++ [c])).lastTouchTick =
        (if 14 ≤ pre.length + 1 then c else 1) := by
  have h0 : (RandomRRC.reset d).refCount = 1 := rfl
  have h1 : (RandomRRC.touches (RandomRRC.reset d) pre).refCount = 1 + pre.length := by
    rw [RandomRRC.touches_refCount _ _ (by rw [h0]; omega), h0]
  have h2 : (RandomRRC.touches (RandomRRC.reset d) pre).refCount + 1 < 2 ^ 32 := by omega
  rw [RandomRRC.touches_concat, touch_step_refCount _ c h2, touch_step_tick _ c h2, h1]
  refine ⟨by omega, ?_⟩
  by_cases hk : 14 ≤ pre.length + 1
  · rw [if_pos hk, if_pos (by omega)]
  · rw [if_neg hk, if_neg (by omega)]

/-- C6 fails as stated: after an install and fourteen touches at the clock
values 2, 3, ..., 15 the time stamp is 15, the clock of the fourteenth touch,
not 1. -/
theorem touch_fourteen_promotes :
    (RandomRRC.touches (RandomRRC.reset instantiateEntry)
        [2, 3, 4, 5, 6, 7, 8, 9, 10, 11, 12, 13, 14, 15]).lastTouchTick = 15 ∧
      (RandomRRC.touches (RandomRRC.reset instantiateEntry)
        [2, 3, 4, 5, 6, 7, 8, 9, 10, 11, 12, 13, 14, 15]).lastTouchTick ≠ 1 := by
  decide

/-- C6 as amended: in the fixed variant, for a line that has just been
installed and is then touched repeatedly, the touch number `pre.length + 1`
at clock `c` leaves `lastTouchTick == 1` when it is one of the touches 1
through 13, and `lastTouchTick == c` when it is touch 14 or touch 15. -/
theorem touch_after_reset_gate (d : RandomReplData) (pre : List Nat) (c : Nat) :
    (pre.length + 1 ≤ 13 →
        (RandomRRC.touches (RandomRRC.reset d) (pre ++ [c])).lastTouchTick = 1) ∧
      (pre.length + 1 = 14 ∨ pre.length + 1 = 15 →
        (RandomRRC.touches (RandomRRC.reset d) (pre ++ [c])).lastTouchTick = c) := by
  constructor
  · intro hk
    rw [(RandomRRC.touches_after_reset d pre c (by omega)).2, if_neg (by omega)]
  · intro hk
    rw [(RandomRRC.touches_after_reset d pre c (by omega)).2, if_pos (by omega)]

/-- C6 as amended, on the clock values 2, 3, ..., 16: touch 13 leaves the
time stamp 1, touch 14 sets it to 15 and touch 15 sets it to 16. -/
theorem touch_after_reset_gate_witness :
    (RandomRRC.touches (RandomRRC.reset ⟨40, 9⟩)
        ([2, 3, 4, 5, 6, 7, 8, 9, 10, 11, 12, 13] ++ [14])).lastTouchTick = 1 ∧
      (RandomRRC.touches (RandomRRC.reset ⟨40, 9⟩)
        ([2, 3, 4, 5, 6, 7, 8, 9, 10, 11, 12, 13, 14] ++ [15])).lastTouchTick = 15 ∧
      (RandomRRC.touches (RandomRRC.reset ⟨40, 9⟩)
        ([2, 3, 4, 5, 6, 7, 8, 9, 10, 11, 12, 13, 14, 15] ++ [16])).lastTouchTick = 16 :=
  ⟨(touch_after_reset_gate ⟨40, 9⟩ [2, 3, 4, 5, 6, 7, 8, 9, 10, 11, 12, 13] 14).1 (by decide),
    (touch_after_reset_gate ⟨40, 9⟩ [2, 3, 4, 5, 6, 7, 8, 9, 10, 11, 12, 13, 14] 15).2
      (Or.inl (by decide)),
    (touch_after_reset_gate ⟨40, 9⟩ [2, 3, 4, 5, 6, 7, 8, 9, 10, 11, 12, 13, 14, 15] 16).2
      (Or.inr (by decide))⟩

/-! ## Runs of calls of the adaptive variant -/

theorem Random.run_append (s : Shared) (a b : List Random.Call) :
    Random.run s (a ++ b) = (Random.run s a).bind (fun s1 => Random.run s1 b) := by
  induction a generalizing s with
  | nil => rfl
  | cons c a ih =>
    simp only [List.cons_append, Random.run]
    cases Random.call s c with
    | none => rfl
    | some s1 => exact ih s1

/-- Two runs in a row. -/
theorem Random.run_append_some {s s1 s2 : Shared} {a b : List Random.Call}
    (ha : Random.run s a = some s1) (hb : Random.run s1 b = some s2) :
    Random.run s (a ++ b) = some s2 := by
  rw [Random.run_append, ha]
  exact hb

/-- A run of touches only adds its length to `found_access`. -/
theorem Random.run_touches (s : Shared) (calls : List Random.Call)
    (hc : ∀ c ∈ calls, ∃ d t, c = Random.Call.touch d t) (ha : s.found_access < 2 ^ 32) :
    Random.run s calls =
      some { s with found_access := (s.found_access + calls.length) % 2 ^ 32 } := by
  induction calls generalizing s with
  | nil =>
    simp only [Random.run, List.length_nil, Nat.add_zero, Nat.mod_eq_of_lt ha]
  | cons c cs ih =>
    obtain ⟨d, t, rfl⟩ := hc _ (List.mem_cons_self _ _)
    have h1 := ih (Random.touch s d t).1 (fun c1 h1 => hc c1 (List.mem_cons_of_mem _ h1))
      (Nat.mod_lt _ (by decide))
    show Random.run (Random.touch s d t).1 cs = _
    rw [h1]
    simp only [Random.touch, List.length_cons]
    congr 2
    omega

theorem Random.run_touchCalls (s : Shared) (n : Nat) (ha : s.found_access < 2 ^ 32) :
    Random.run s (Random.touchCalls n) =
      some { s with found_access := (s.found_access + n) % 2 ^ 32 } := by
  have h := Random.run_touches s (Random.touchCalls n)
    (fun c hc => ⟨_, _, List.eq_of_mem_replicate hc⟩) ha
  rw [h]
  simp [Random.touchCalls]

/-- A window runs its misses from the state that its hits leave. -/
theorem Random.run_window (s : Shared) (hits misses : Nat) (ha : s.found_access < 2 ^ 32) :
    Random.run s (Random.window hits misses) =
      Random.run { s with found_access := (s.found_access + hits) % 2 ^ 32 }
        (Random.missCalls misses) := by
  unfold Random.window
  rw [Random.run_append, Random.run_touchCalls s hits ha]
  rfl


/-- A property of the static members that holds initially and is kept by
every call holds after every run of calls. -/
theorem Random.run_invariant (P : Shared → Prop)
    (hstep : ∀ s c s1, P s → Random.call s c = some s1 → P s1) :
    ∀ (calls : List Random.Call) (s s1 : Shared), P s → Random.run s calls = some s1 → P s1 := by
  intro calls
  induction calls with
  | nil =>
    intro s s1 hs h
    have : s = s1 := Option.some.inj h
    exact this ▸ hs
  | cons c cs ih =>
    intro s s1 hs h
    unfold Random.run at h
    cases hc : Random.call s c with
    | none =>
      rw [hc] at h
      cases h
    | some s2 =>
      rw [hc] at h
      exact ih s2 s1 (hstep s c s2 hs hc) h

/-- The static members after the calls of `climbOpen`: five windows have
raised the threshold to 21, and the sixth window stands at 10,000,000
accesses and one miss. -/
theorem Random.run_climbOpen :
    Random.run Random.init Random.climbOpen =
      some ⟨1, 10000000, 21, 513, F32.fin 14073747 (-46)⟩ := by
  have h0 : Random.run Random.init (Random.window 10000001 1) = some Random.coldStart := by
    rw [Random.run_window _ _ _ (by decide)]
    rfl
  have h1 : Random.run Random.coldStart (Random.window 9999994 6) =
      some ⟨0, 0, 5, 513, F32.fin 10555311 (-44)⟩ := by
    rw [Random.run_window _ _ _ (by decide)]
    rfl
  have h2 : Random.run ⟨0, 0, 5, 513, F32.fin 10555311 (-44)⟩ (Random.window 9999996 5) =
      some ⟨0, 0, 9, 513, F32.fin 8796092 (-44)⟩ := by
    rw [Random.run_window _ _ _ (by decide)]
    rfl
  have h3 : Random.run ⟨0, 0, 9, 513, F32.fin 8796092 (-44)⟩ (Random.window 9999997 4) =
      some ⟨0, 0, 13, 513, F32.fin 14073747 (-45)⟩ := by
    rw [Random.run_window _ _ _ (by decide)]
    rfl
  have h4 : Random.run ⟨0, 0, 13, 513, F32.fin 14073747 (-45)⟩ (Random.window 9999998 3) =
      some ⟨0, 0, 17, 513, F32.fin 10555311 (-45)⟩ := by
    rw [Random.run_window _ _ _ (by decide)]
    rfl
  have h5 : Random.run ⟨0, 0, 17, 513, F32.fin 10555311 (-45)⟩ (Random.window 9999999 2) =
      some ⟨0, 0, 21, 513, F32.fin 14073747 (-46)⟩ := by
    rw [Random.run_window _ _ _ (by decide)]
    rfl
  have h6 : Random.run ⟨0, 0, 21, 513, F32.fin 14073747 (-46)⟩ (Random.touchCalls 10000000) =
      some ⟨0, 10000000, 21, 513, F32.fin 14073747 (-46)⟩ := by
    rw [Random.run_touchCalls _ _ (by decide)]
    rfl
  have h7 : Random.run ⟨0, 10000000, 21, 513, F32.fin 14073747 (-46)⟩
      [Random.Call.getVictim [⟨0, instantiateEntry⟩]] =
      some ⟨1, 10000000, 21, 513, F32.fin 14073747 (-46)⟩ := rfl
  exact Random.run_append_some (Random.run_append_some (Random.run_append_some
    (Random.run_append_some (Random.run_append_some (Random.run_append_some h0 h1) h2) h3) h4) h5)
    (Random.run_append_some h6 h7)

/-! ## The threshold bounds of the adaptive variant -/

/-- C7 fails on the code: the calls of `climb`, a warm-up followed by six
windows whose miss rate improves each time, lead from the initial static
members to `roi_threshold == 25`, above the bound 22. -/
theorem threshold_reaches_25 :
    ∃ s, Random.run Random.init Random.climb = some s ∧ Random.Reachable s ∧
      s.roi_threshold = 25 ∧ ¬ s.roi_threshold ≤ 22 := by
  have h : Random.run Random.init Random.climb =
      some ⟨0, 0, 25, 513, F32.fin 14073747 (-47)⟩ := by
    unfold Random.climb
    rw [Random.run_append, Random.run_climbOpen]
    rfl
  exact ⟨_, h, ⟨_, h⟩, rfl, by decide⟩

/-- C8 fails on the code: the calls of `climbOpen` lead to warmed-up static
members with `roi_threshold == 21` at which the next install ends a window
with a miss rate below the last one; the install sets the threshold to 25,
not to `min (21 + 4) 22 = 22`. -/
theorem rollover_at_21_gives_25 :
    ∃ s, Random.run Random.init Random.climbOpen = some s ∧ Random.warmedUp s ∧
      (Random.resetInit s).found_access > 10000000 ∧
      F32.lt (Random.missRate (Random.resetInit s)) s.last_miss_rate = true ∧
      s.roi_threshold = 21 ∧
      (Random.reset s instantiateEntry).1.roi_threshold = 25 ∧
      (Random.reset s instantiateEntry).1.roi_threshold ≠ min (s.roi_threshold + 4) 22 := by
  refine ⟨_, Random.run_climbOpen, rfl, by decide, by decide, rfl, by decide, by decide⟩

/-! ## The warm-up gate -/

/-- The first conditional of `reset` when it takes the cold start. -/
theorem Random.resetInit_cold (s : Shared) (hw : s.init_flag ≠ 513)
    (ha : s.found_access > 10000000) : Random.resetInit s = Random.coldStart := by
  unfold Random.resetInit
  rw [if_pos ⟨hw, ha⟩]
  rfl

/-- The first conditional of `reset` when it counts one more access. -/
theorem Random.resetInit_count (s : Shared)
    (h : ¬ (s.init_flag ≠ 513 ∧ s.found_access > 10000000)) :
    Random.resetInit s = { s with found_access := (s.found_access + 1) % 2 ^ 32 } := by
  unfold Random.resetInit
  rw [if_neg h]

/-- The second conditional of `reset` when no window ends. -/
theorem Random.resetWindow_idle (s : Shared)
    (h : ¬ (s.init_flag = 513 ∧ s.found_access > 10000000)) : Random.resetWindow s = s := by
  unfold Random.resetWindow
  rw [if_neg h]

/-- The second conditional of `reset` at the end of a window. -/
theorem Random.resetWindow_rollover (s : Shared) (hw : s.init_flag = 513)
    (ha : s.found_access > 10000000) :
    Random.resetWindow s =
      { s with
        roi_threshold := Random.adjust (Random.missRate s) s.last_miss_rate s.roi_threshold,
        last_miss_rate := Random.missRate s,
        found_access := 0,
        found_miss := 0 } := by
  unfold Random.resetWindow
  rw [if_pos ⟨hw, ha⟩]

/-- A call never clears the flag: warmed-up static members stay warmed
up. -/
theorem Random.call_keeps_warmedUp (s : Shared) (c : Random.Call) (s1 : Shared)
    (hw : Random.warmedUp s) (h : Random.call s c = some s1) : Random.warmedUp s1 := by
  unfold Random.warmedUp at hw ⊢
  cases c with
  | touch d t =>
    have : s1 = (Random.touch s d t).1 := (Option.some.inj h).symm
    rw [this]
    exact hw
  | reset d =>
    have : s1 = (Random.reset s d).1 := (Option.some.inj h).symm
    rw [this]
    have h1 : Random.resetInit s = { s with found_access := (s.found_access + 1) % 2 ^ 32 } :=
      Random.resetInit_count s (fun h2 => h2.1 hw)
    show (Random.resetWindow (Random.resetInit s)).init_flag = 513
    rw [h1]
    unfold Random.resetWindow
    split
    · exact hw
    · exact hw
  | invalidate d =>
    have : s1 = s := (Option.some.inj h).symm
    rw [this]
    exact hw
  | getVictim cs =>
    cases cs with
    | nil => cases h
    | cons c0 cs =>
      have : s1 = { s with found_miss := (s.found_miss + 1) % 2 ^ 32 } :=
        (Option.some.inj h).symm
      rw [this]
      exact hw

/-- One call from static members that are not warmed up: the threshold and
the last miss rate are unchanged as long as the flag stays clear, and the
flag is set only by a `reset` that finds `found_access > 10000000`, which
leaves the cold-start values. -/
theorem Random.call_before_warmedUp (s : Shared) (c : Random.Call) (s1 : Shared)
    (hw : ¬ Random.warmedUp s) (h : Random.call s c = some s1) :
    (¬ Random.warmedUp s1 →
        s1.roi_threshold = s.roi_threshold ∧ s1.last_miss_rate = s.last_miss_rate) ∧
      (Random.warmedUp s1 →
        (∃ d, c = Random.Call.reset d) ∧ s.found_access > 10000000 ∧
          s1 = Random.coldStart) := by
  unfold Random.warmedUp at hw ⊢
  cases c with
  | touch d t =>
    have h1 : s1 = (Random.touch s d t).1 := (Option.some.inj h).symm
    rw [h1]
    exact ⟨fun _ => ⟨rfl, rfl⟩, fun h2 => absurd h2 hw⟩
  | reset d =>
    have h1 : s1 = (Random.reset s d).1 := (Option.some.inj h).symm
    rw [h1]
    by_cases ha : s.found_access > 10000000
    · have h2 : (Random.reset s d).1 = Random.coldStart := by
        show Random.resetWindow (Random.resetInit s) = Random.coldStart
        rw [Random.resetInit_cold s hw ha]
        rfl
      rw [h2]
      exact ⟨fun h3 => absurd rfl h3, fun _ => ⟨⟨d, rfl⟩, ha, rfl⟩⟩
    · have h2 : (Random.reset s d).1 =
          { s with found_access := (s.found_access + 1) % 2 ^ 32 } := by
        show Random.resetWindow (Random.resetInit s) = _
        rw [Random.resetInit_count s (fun h3 => ha h3.2)]
        exact Random.resetWindow_idle _ (fun h3 => hw h3.1)
      rw [h2]
      exact ⟨fun _ => ⟨rfl, rfl⟩, fun h3 => absurd h3 hw⟩
  | invalidate d =>
    have h1 : s1 = s := (Option.some.inj h).symm
    rw [h1]
    exact ⟨fun _ => ⟨rfl, rfl⟩, fun h2 => absurd h2 hw⟩
  | getVictim cs =>
    cases cs with
    | nil => cases h
    | cons c0 cs =>
      have h1 : s1 = { s with found_miss := (s.found_miss + 1) % 2 ^ 32 } :=
        (Option.some.inj h).symm
      rw [h1]
      exact ⟨fun _ => ⟨rfl, rfl⟩, fun h2 => absurd h2 hw⟩

/-- Reachable static members that are not warmed up still hold the initial
threshold 1 and the initial last miss rate 0. -/
theorem Random.reachable_before_warmedUp (s : Shared) (hs : Random.Reachable s)
    (hw : ¬ Random.warmedUp s) :
    s.roi_threshold = 1 ∧ s.last_miss_rate = F32.zero := by
  obtain ⟨calls, hrun⟩ := hs
  have key := Random.run_invariant
    (fun s => ¬ Random.warmedUp s → s.roi_threshold = 1 ∧ s.last_miss_rate = F32.zero)
    (fun s c s1 hP hc hw1 => by
      have hw0 : ¬ Random.warmedUp s := fun h0 => hw1 (Random.call_keeps_warmedUp s c s1 h0 hc)
      have h1 := (Random.call_before_warmedUp s c s1 hw0 hc).1 hw1
      have h2 := hP hw0
      exact ⟨h1.1.trans h2.1, h1.2.trans h2.2⟩)
    calls Random.init s (fun _ => ⟨rfl, rfl⟩) hrun
  exact key hw

/-- The static members after 10,000,001 touches from the initial values are
reachable. -/
theorem Random.reachable_after_touches :
    Random.Reachable ⟨0, 10000001, 1, 0, F32.zero⟩ :=
  ⟨Random.touchCalls 10000001, by
    rw [Random.run_touchCalls _ _ (by decide)]
    rfl⟩

/-- C9: in the adaptive variant, reachable static members that are not
warmed up hold threshold 1 and last miss rate 0, and no call changes them
while the flag stays clear; the only call that sets the flag is a `reset`
that finds `found_access > 10000000`, and it leaves `found_access == 1`,
`found_miss == 0`, `roi_threshold == 1`, `last_miss_rate == 0.99` and the flag
set, whatever the counters held, with no adjustment in the same call. -/
theorem warmup_gate (s : Shared) (hs : Random.Reachable s) (hw : ¬ Random.warmedUp s) :
    s.roi_threshold = 1 ∧ s.last_miss_rate = F32.zero ∧
      (∀ c s1, Random.call s c = some s1 →
        (¬ Random.warmedUp s1 → s1.roi_threshold = 1 ∧ s1.last_miss_rate = F32.zero) ∧
        (Random.warmedUp s1 →
          (∃ d, c = Random.Call.reset d) ∧ s.found_access > 10000000 ∧
            s1.found_access = 1 ∧ s1.found_miss = 0 ∧ s1.roi_threshold = 1 ∧
            s1.last_miss_rate = F32.c099)) ∧
      (∀ d, s.found_access > 10000000 →
        (Random.reset s d).1 =
          { found_miss := 0, found_access := 1, roi_threshold := 1, init_flag := 513,
            last_miss_rate := F32.c099 }) := by
  have h0 := Random.reachable_before_warmedUp s hs hw
  refine ⟨h0.1, h0.2, fun c s1 hc => ⟨fun hw1 => ?_, fun hw1 => ?_⟩, fun d ha => ?_⟩
  · have h1 := (Random.call_before_warmedUp s c s1 hw hc).1 hw1
    exact ⟨h1.1.trans h0.1, h1.2.trans h0.2⟩
  · obtain ⟨h1, h2, h3⟩ := (Random.call_before_warmedUp s c s1 hw hc).2 hw1
    rw [h3]
    exact ⟨h1, h2, rfl, rfl, rfl, rfl⟩
  · show Random.resetWindow (Random.resetInit s) = _
    rw [Random.resetInit_cold s hw ha]
    rfl

/-- C9, on the static members after 10,000,001 touches from the initial
values: the install that follows performs the cold start. -/
theorem warmup_gate_witness :
    (⟨0, 10000001, 1, 0, F32.zero⟩ : Shared).roi_threshold = 1 ∧
      (Random.reset ⟨0, 10000001, 1, 0, F32.zero⟩ instantiateEntry).1 =
        { found_miss := 0, found_access := 1, roi_threshold := 1, init_flag := 513,
          last_miss_rate := F32.c099 } :=
  have h := warmup_gate ⟨0, 10000001, 1, 0, F32.zero⟩ Random.reachable_after_touches
    (by decide)
  ⟨h.1, h.2.2.2 instantiateEntry (by decide)⟩

/-! ## The first window after the cold start -/

/-- C10: from the static members of the cold start, exactly 10,000,001
touches (of any lines, at any clock values) and then one install end a
window with miss rate 0, below 0.99, and leave `roi_threshold == 5`. -/
theorem first_window_raises_threshold (ts : List (RandomReplData × Nat))
    (d : RandomReplData) (h : ts.length = 10000001) :
    ∃ s, Random.run Random.coldStart
          (ts.map (fun t => Random.Call.touch t.1 t.2) ++ [Random.Call.reset d]) = some s ∧
      s.roi_threshold = 5 ∧ s.last_miss_rate = F32.zero ∧
      F32.lt F32.zero Random.coldStart.last_miss_rate = true := by
  have h1 : Random.run Random.coldStart (ts.map (fun t => Random.Call.touch t.1 t.2)) =
      some ⟨0, 10000002, 1, 513, F32.c099⟩ := by
    rw [Random.run_touches _ _ _ (by decide)]
    · rw [List.length_map, h]
      rfl
    · intro c hc
      obtain ⟨t, _, rfl⟩ := List.mem_map.mp hc
      exact ⟨_, _, rfl⟩
  have h2 : Random.run ⟨0, 10000002, 1, 513, F32.c099⟩ [Random.Call.reset d] =
      some ⟨0, 0, 5, 513, F32.zero⟩ := rfl
  exact ⟨_, Random.run_append_some h1 h2, rfl, rfl, by decide⟩

/-- C10, on 10,000,001 touches of a fresh line at clock 7. -/
theorem first_window_raises_threshold_witness :
    ∃ s, Random.run Random.coldStart
          ((List.replicate 10000001 (instantiateEntry, 7)).map
              (fun t => Random.Call.touch t.1 t.2) ++ [Random.Call.reset instantiateEntry]) =
            some s ∧
      s.roi_threshold = 5 ∧ s.last_miss_rate = F32.zero ∧
      F32.lt F32.zero Random.coldStart.last_miss_rate = true :=
  first_window_raises_threshold (List.replicate 10000001 (instantiateEntry, 7)) instantiateEntry
    (List.length_replicate _ _)

/-! ## Invalidate, and the frame of victim selection -/

/-- C11: in both variants `invalidate` sets `refCount == 0` and
`lastTouchTick == 0` whatever the line held; in the adaptive variant every
static member (`found_access`, `found_miss`, `roi_threshold`,
`last_miss_rate`, `init_flag`) is unchanged. -/
theorem invalidate_zeroes (d : RandomReplData) (s : Shared) :
    (RandomRRC.invalidate d).refCount = 0 ∧ (RandomRRC.invalidate d).lastTouchTick = 0 ∧
      (Random.invalidate s d).2.refCount = 0 ∧ (Random.invalidate s d).2.lastTouchTick = 0 ∧
      (Random.invalidate s d).1.found_access = s.found_access ∧
      (Random.invalidate s d).1.found_miss = s.found_miss ∧
      (Random.invalidate s d).1.roi_threshold = s.roi_threshold ∧
      (Random.invalidate s d).1.last_miss_rate = s.last_miss_rate ∧
      (Random.invalidate s d).1.init_flag = s.init_flag ∧
      (Random.invalidate s d).1 = s :=
  ⟨rfl, rfl, rfl, rfl, rfl, rfl, rfl, rfl, rfl, rfl⟩

/-- C12: in the adaptive variant `getVictim` on a non-empty candidate vector
increments `found_miss` by one (as an unsigned counter) and leaves
`found_access`, `roi_threshold`, `last_miss_rate` and `init_flag` unchanged;
in both variants the victim is handed back as one of the candidates, with
the per-line state it had, and nothing else is produced. -/
theorem getVictim_frame (s : Shared) (cands : List ReplaceableEntry) (h : cands ≠ []) :
    (∃ s1 v, Random.getVictim s cands = some (s1, v) ∧
        s1.found_miss = (s.found_miss + 1) % 2 ^ 32 ∧
        (s.found_miss + 1 < 2 ^ 32 → s1.found_miss = s.found_miss + 1) ∧
        s1.found_access = s.found_access ∧ s1.roi_threshold = s.roi_threshold ∧
        s1.last_miss_rate = s.last_miss_rate ∧ s1.init_flag = s.init_flag ∧
        v ∈ cands) ∧
      ∃ v, RandomRRC.getVictim cands = some v ∧ v ∈ cands := by
  obtain ⟨c0, hc0⟩ : ∃ c0, c0 ∈ cands := List.exists_mem_of_ne_nil cands h
  have hmem := (scan_min cands c0 h).1
  refine ⟨⟨_, _, Random.getVictim_shared_eq_scan s cands c0 h, rfl,
    fun hm => Nat.mod_eq_of_lt hm, rfl, rfl, rfl, rfl, hmem⟩, ?_⟩
  exact ⟨_, RandomRRC.getVictim_eq_scan cands c0 h, hmem⟩

/-- C12, on two candidates with 41 misses counted so far. -/
theorem getVictim_frame_witness :
    (∃ s1 v, Random.getVictim ⟨41, 900, 9, 513, F32.c099⟩
          [⟨100, ⟨20, 5⟩⟩, ⟨101, ⟨1, 1⟩⟩] = some (s1, v) ∧
        s1.found_miss = (41 + 1) % 2 ^ 32 ∧
        (41 + 1 < 2 ^ 32 → s1.found_miss = 41 + 1) ∧
        s1.found_access = 900 ∧ s1.roi_threshold = 9 ∧
        s1.last_miss_rate = F32.c099 ∧ s1.init_flag = 513 ∧
        v ∈ [⟨100, ⟨20, 5⟩⟩, (⟨101, ⟨1, 1⟩⟩ : ReplaceableEntry)]) ∧
      ∃ v, RandomRRC.getVictim [⟨100, ⟨20, 5⟩⟩, ⟨101, ⟨1, 1⟩⟩] = some v ∧
        v ∈ [⟨100, ⟨20, 5⟩⟩, (⟨101, ⟨1, 1⟩⟩ : ReplaceableEntry)] :=
  getVictim_frame ⟨41, 900, 9, 513, F32.c099⟩ [⟨100, ⟨20, 5⟩⟩, ⟨101, ⟨1, 1⟩⟩] (by decide)

/-! ## The fixed variant as the adaptive variant at threshold 14 -/

/-- C13: for static members whose `roi_threshold` is 14, `touch`, `reset` and
`invalidate` of the adaptive variant leave the line in the state that the
fixed variant produces, and `getVictim` returns the same candidate (or
fails alike). -/
theorem fixed_refines_adaptive_at_14 (s : Shared) (h : s.roi_threshold = 14)
    (d : RandomReplData) (now : Nat) (cands : List ReplaceableEntry) :
    (Random.touch s d now).2 = RandomRRC.touch d now ∧
      (Random.reset s d).2 = RandomRRC.reset d ∧
      (Random.invalidate s d).2 = RandomRRC.invalidate d ∧
      (Random.getVictim s cands).map Prod.snd = RandomRRC.getVictim cands := by
  refine ⟨?_, rfl, rfl, ?_⟩
  · unfold Random.touch RandomRRC.touch
    simp only [h]
  · cases cands with
    | nil => rfl
    | cons c cs => rfl

/-- C13, on a line with reference count 14 touched at clock 700. -/
theorem fixed_refines_adaptive_at_14_witness :
    (Random.touch ⟨3, 8, 14, 513, F32.c099⟩ ⟨14, 1⟩ 700).2 = RandomRRC.touch ⟨14, 1⟩ 700 ∧
      (Random.reset ⟨3, 8, 14, 513, F32.c099⟩ ⟨14, 1⟩).2 = RandomRRC.reset ⟨14, 1⟩ ∧
      (Random.invalidate ⟨3, 8, 14, 513, F32.c099⟩ ⟨14, 1⟩).2 = RandomRRC.invalidate ⟨14, 1⟩ ∧
      (Random.getVictim ⟨3, 8, 14, 513, F32.c099⟩
          [⟨100, ⟨20, 5⟩⟩, ⟨101, ⟨1, 1⟩⟩]).map Prod.snd =
        RandomRRC.getVictim [⟨100, ⟨20, 5⟩⟩, ⟨101, ⟨1, 1⟩⟩] :=
  fixed_refines_adaptive_at_14 ⟨3, 8, 14, 513, F32.c099⟩ rfl ⟨14, 1⟩ 700
    [⟨100, ⟨20, 5⟩⟩, ⟨101, ⟨1, 1⟩⟩]

/-! ## Independence of the candidate order -/

/-- C14: in both variants, when `v` is the only candidate of a vector with
the minimal `lastTouchTick` (every other candidate has a strictly larger
one), `getVictim` returns `v` on every permutation of the vector. -/
theorem getVictim_unique_min_perm (cands perm : List ReplaceableEntry) (v : ReplaceableEntry)
    (hv : v ∈ cands)
    (huniq : ∀ c ∈ cands, c ≠ v →
      v.replacementData.lastTouchTick < c.replacementData.lastTouchTick)
    (hperm : List.Perm cands perm) :
    RandomRRC.getVictim perm = some v ∧
      ∀ s : Shared, (Random.getVictim s perm).map Prod.snd = some v := by
  have hvp : v ∈ perm := hperm.mem_iff.mp hv
  have hne : perm ≠ [] := List.ne_nil_of_mem hvp
  have hmin := scan_min perm v hne
  have hw : perm.foldl scanStep (perm.headD v) = v := by
    by_contra hcon
    have h1 := huniq _ (hperm.mem_iff.mpr hmin.1) hcon
    have h2 := hmin.2 v hvp
    omega
  refine ⟨?_, fun s => ?_⟩
  · rw [RandomRRC.getVictim_eq_scan perm v hne, hw]
  · rw [Random.getVictim_shared_eq_scan s perm v hne, hw]
    rfl

/-- C14, on the time stamps 5, 1, 7 and the same candidates in the order
7, 5, 1. -/
theorem getVictim_unique_min_perm_witness :
    RandomRRC.getVictim [⟨102, ⟨30, 7⟩⟩, ⟨100, ⟨20, 5⟩⟩, ⟨101, ⟨1, 1⟩⟩] = some ⟨101, ⟨1, 1⟩⟩ ∧
      ∀ s : Shared,
        (Random.getVictim s [⟨102, ⟨30, 7⟩⟩, ⟨100, ⟨20, 5⟩⟩, ⟨101, ⟨1, 1⟩⟩]).map Prod.snd =
          some ⟨101, ⟨1, 1⟩⟩ :=
  getVictim_unique_min_perm [⟨100, ⟨20, 5⟩⟩, ⟨101, ⟨1, 1⟩⟩, ⟨102, ⟨30, 7⟩⟩]
    [⟨102, ⟨30, 7⟩⟩, ⟨100, ⟨20, 5⟩⟩, ⟨101, ⟨1, 1⟩⟩] ⟨101, ⟨1, 1⟩⟩
    (by decide) (by decide) (by decide)

/-! ## The end of a window -/

/-- C16: in the adaptive variant, at an install on warmed-up static members
whose `found_access`, after the install's own increment, exceeds 10,000,000,
`last_miss_rate` is set to the quotient of `found_miss` by `found_access`,
both read before they are cleared, and both counters are 0 afterwards. -/
theorem rollover_records_rate (s : Shared) (d : RandomReplData) (hw : Random.warmedUp s)
    (ha : (s.found_access + 1) % 2 ^ 32 > 10000000) :
    (Random.reset s d).1.last_miss_rate =
        F32.div (F32.ofUnsigned s.found_miss)
          (F32.ofUnsigned ((s.found_access + 1) % 2 ^ 32)) ∧
      (Random.reset s d).1.found_access = 0 ∧ (Random.reset s d).1.found_miss = 0 := by
  have h1 : Random.resetInit s = { s with found_access := (s.found_access + 1) % 2 ^ 32 } :=
    Random.resetInit_count s (fun h2 => h2.1 hw)
  have h2 : (Random.reset s d).1 = Random.resetWindow (Random.resetInit s) := rfl
  have h3 := Random.resetWindow_rollover
    { s with found_access := (s.found_access + 1) % 2 ^ 32 } hw ha
  rw [h2, h1, h3]
  exact ⟨rfl, rfl, rfl⟩

/-- C16, on a window of 10,000,001 accesses with 6 misses. -/
theorem rollover_records_rate_witness :
    (Random.reset ⟨6, 10000000, 1, 513, F32.c099⟩ instantiateEntry).1.last_miss_rate =
        F32.div (F32.ofUnsigned 6) (F32.ofUnsigned ((10000000 + 1) % 2 ^ 32)) ∧
      (Random.reset ⟨6, 10000000, 1, 513, F32.c099⟩ instantiateEntry).1.found_access = 0 ∧
      (Random.reset ⟨6, 10000000, 1, 513, F32.c099⟩ instantiateEntry).1.found_miss = 0 :=
  rollover_records_rate ⟨6, 10000000, 1, 513, F32.c099⟩ instantiateEntry rfl (by decide)

/-! ## The divisor of the miss rate -/

/-- The repeated halving never overshoots: `2 ^ log2Aux fuel n ≤ n` for
`n ≥ 1`. -/
theorem F32.log2Aux_le (fuel n : Nat) (h : 1 ≤ n) : 2 ^ F32.log2Aux fuel n ≤ n := by
  induction fuel generalizing n with
  | zero => simpa [F32.log2Aux] using h
  | succ fuel ih =>
    unfold F32.log2Aux
    split
    · simpa using h
    · have h2 : 1 ≤ n / 2 := by omega
      have := ih (n / 2) h2
      rw [Nat.pow_succ]
      omega

/-- A conditional between two finite values is finite. -/
theorem F32.ite_finite (c : Prop) [Decidable c] (m1 m2 : Nat) (e1 e2 : Int) :
    ∃ m e, (if c then F32.fin m1 e1 else F32.fin m2 e2) = F32.fin m e := by
  split
  · exact ⟨_, _, rfl⟩
  · exact ⟨_, _, rfl⟩

/-- The rounding of a quotient with a non-zero denominator is finite. -/
theorem F32.round_finite (n d : Nat) (hd : d ≠ 0) : ∃ m e, F32.round n d = F32.fin m e := by
  unfold F32.round
  rw [if_neg hd]
  by_cases hn : n = 0
  · rw [if_pos hn]
    exact ⟨_, _, rfl⟩
  · rw [if_neg hn]
    lift_lets
    intro l e sh num den q r q1
    exact F32.ite_finite _ _ _ _ _

/-- The conversion of a non-zero counter is a non-zero finite value. -/
theorem F32.ofUnsigned_ne_zero (n : Nat) (hn : n ≠ 0) :
    ∃ m e, F32.ofUnsigned n = F32.fin m e ∧ m ≠ 0 := by
  have hle : 2 ^ F32.log2 n ≤ n := F32.log2Aux_le n n (by omega)
  unfold F32.ofUnsigned F32.round
  rw [if_neg (by decide), if_neg hn]
  lift_lets
  intro l e sh num den q r q1
  have hl : l = (F32.log2 n : Int) := by
    show (F32.log2 n : Int) - (F32.log2 1 : Int) = _
    have : F32.log2 1 = 0 := rfl
    rw [this]
    simp
  have he : e ≤ l := by
    show (if F32.geScaled n 1 l = true then l else l - 1) ≤ l
    split <;> omega
  have hsh : sh = 23 - e := rfl
  have hden : 0 < den ∧ den ≤ num := by
    by_cases h0 : 0 ≤ sh
    · have h1 : num = n * 2 ^ sh.toNat := if_pos h0
      have h2 : den = 1 := if_pos h0
      have h3 : 0 < 2 ^ sh.toNat := Nat.pow_pos (by decide)
      rw [h1, h2]
      exact ⟨by decide, Nat.mul_pos (Nat.pos_of_ne_zero hn) h3⟩
    · have h1 : num = n := if_neg h0
      have h2 : den = 1 * 2 ^ (-sh).toNat := if_neg h0
      have h3 : (-sh).toNat ≤ F32.log2 n := by omega
      have h4 : 2 ^ (-sh).toNat ≤ 2 ^ F32.log2 n := Nat.pow_le_pow_right (by decide) h3
      rw [h1, h2, Nat.one_mul]
      exact ⟨Nat.pow_pos (by decide), Nat.le_trans h4 hle⟩
  have hq : 0 < q := Nat.div_pos hden.2 hden.1
  have hq1 : q ≤ q1 := by
    show q ≤ (if den < 2 * r ∨ (2 * r = den ∧ q % 2 = 1) then q + 1 else q)
    split <;> omega
  by_cases h24 : q1 = 2 ^ 24
  · rw [if_pos h24]
    exact ⟨_, _, rfl, by decide⟩
  · rw [if_neg h24]
    exact ⟨_, _, rfl, by omega⟩

/-- The quotient of a counter by a non-zero counter is finite: neither
infinity nor not-a-number. -/
theorem F32.div_ofUnsigned_finite (a b : Nat) (hb : b ≠ 0) :
    ∃ m e, F32.div (F32.ofUnsigned a) (F32.ofUnsigned b) = F32.fin m e := by
  obtain ⟨m1, e1, h1⟩ := F32.round_finite a 1 (by decide)
  obtain ⟨m2, e2, h2, hm2⟩ := F32.ofUnsigned_ne_zero b hb
  obtain ⟨m3, e3, h3⟩ := F32.round_finite m1 m2 hm2
  have h1b : F32.ofUnsigned a = F32.fin m1 e1 := h1
  rw [h1b, h2]
  cases m3 with
  | zero => exact ⟨0, 0, by simp only [F32.div, h3]⟩
  | succ k => exact ⟨k + 1, e3 + e1 - e2, by simp only [F32.div, h3]⟩

/-- C17: in the adaptive variant, for all static members (reachable or not),
whenever `reset` reaches the division the `found_access` it divides by is
greater than 10,000,000, hence not zero: its conversion to `float` is a
non-zero finite value and the quotient is finite.  Without the division the
call ends after the first conditional, and a `found_access` that the
increment wraps from `2 ^ 32 - 1` to 0 does not reach the division. -/
theorem divisor_exceeds_window (s : Shared) :
    (∀ n, Random.resetDivisor s = some n →
        n = (Random.resetInit s).found_access ∧ 10000000 < n ∧ n ≠ 0 ∧
        (∃ m e, F32.ofUnsigned n = F32.fin m e ∧ m ≠ 0) ∧
        ∃ m e, Random.missRate (Random.resetInit s) = F32.fin m e) ∧
      (∀ d, Random.resetDivisor s = none → (Random.reset s d).1 = Random.resetInit s) ∧
      (Random.warmedUp s → s.found_access = 2 ^ 32 - 1 → Random.resetDivisor s = none) := by
  refine ⟨fun n h => ?_, fun d h => ?_, fun hw ha => ?_⟩
  · unfold Random.resetDivisor at h
    by_cases hc : (Random.resetInit s).init_flag = 513 ∧
        (Random.resetInit s).found_access > 10000000
    · simp only [if_pos hc] at h
      have hn : n = (Random.resetInit s).found_access := (Option.some.inj h).symm
      have h1 : 10000000 < n := by
        rw [hn]
        exact hc.2
      have h0 : n ≠ 0 := by omega
      refine ⟨hn, h1, h0, F32.ofUnsigned_ne_zero n h0, ?_⟩
      unfold Random.missRate
      rw [← hn]
      exact F32.div_ofUnsigned_finite _ n h0
    · simp only [if_neg hc] at h
      cases h
  · unfold Random.resetDivisor at h
    by_cases hc : (Random.resetInit s).init_flag = 513 ∧
        (Random.resetInit s).found_access > 10000000
    · simp only [if_pos hc] at h
      cases h
    · exact Random.resetWindow_idle _ hc
  · have h1 : Random.resetInit s = { s with found_access := (s.found_access + 1) % 2 ^ 32 } :=
      Random.resetInit_count s (fun h2 => h2.1 hw)
    unfold Random.resetDivisor
    rw [h1]
    have h2 : (s.found_access + 1) % 2 ^ 32 = 0 := by
      rw [ha]
      rfl
    simp only [h2]
    exact if_neg (fun h3 => absurd h3.2 (by decide))

/-- C17, on a window that ends at 10,000,001 accesses, and on a counter at
`2 ^ 32 - 1`. -/
theorem divisor_exceeds_window_witness :
    (10000000 < 10000001 ∧ 10000001 ≠ 0 ∧
        (∃ m e, F32.ofUnsigned 10000001 = F32.fin m e ∧ m ≠ 0) ∧
        ∃ m e, Random.missRate (Random.resetInit ⟨6, 10000000, 1, 513, F32.c099⟩) =
          F32.fin m e) ∧
      Random.resetDivisor ⟨6, 4294967295, 1, 513, F32.c099⟩ = none :=
  ⟨((divisor_exceeds_window ⟨6, 10000000, 1, 513, F32.c099⟩).1 10000001 rfl).2,
    (divisor_exceeds_window ⟨6, 4294967295, 1, 513, F32.c099⟩).2.2 rfl rfl⟩

/-! ## Runs of touches of the fixed variant -/

/-- The line after a run of touches whose last clock value is `c`, short of
an overflow of the counter: the count has grown by the number of touches,
and the time stamp is `c` when the count exceeds 14 and 1 otherwise. -/
theorem RandomRRC.touches_last (d : RandomReplData) (pre : List Nat) (c : Nat)
    (h : d.refCount + pre.length + 1 < 2 ^ 32) :
    (RandomRRC.touches d (pre ++ [c])).refCount = d.refCount + pre.length + 1 ∧
      (RandomRRC.touches d (pre ++ [c])).lastTouchTick =
        (if 14 < d.refCount + pre.length + 1 then c else 1) := by
  have h1 : (RandomRRC.touches d pre).refCount = d.refCount + pre.length :=
    RandomRRC.touches_refCount d pre (by omega)
  have h2 : (RandomRRC.touches d pre).refCount + 1 < 2 ^ 32 := by omega
  rw [RandomRRC.touches_concat, touch_step_refCount _ c h2, touch_step_tick _ c h2, h1]
  exact ⟨rfl, rfl⟩

/-- C18: in the fixed variant, short of an overflow of the reference count,
once a touch has left `refCount > 14` (and so set `lastTouchTick` to its
clock), every later touch of the run sets `lastTouchTick` to its own clock;
and for non-decreasing clock values from 1 on, the time stamp after a touch
is at most the time stamp after every later touch of the run. -/
theorem promoted_line_stays_promoted (d : RandomReplData) (pre post : List Nat) (c : Nat)
    (hov : d.refCount + (pre ++ c :: post).length < 2 ^ 32) :
    (14 < (RandomRRC.touches d (pre ++ [c])).refCount →
        (RandomRRC.touches d (pre ++ [c])).lastTouchTick = c ∧
        ∀ mid c1, post = mid ++ [c1] →
          (RandomRRC.touches d (pre ++ c :: post)).lastTouchTick = c1) ∧
      (1 ≤ c → List.Pairwise (fun a b => a ≤ b) (c :: post) →
        (RandomRRC.touches d (pre ++ [c])).lastTouchTick ≤
          (RandomRRC.touches d (pre ++ c :: post)).lastTouchTick) ∧
      (1 ≤ c → d.lastTouchTick ≤ 1 ∨ (14 < d.refCount ∧ d.lastTouchTick ≤ c) →
        d.lastTouchTick ≤ (RandomRRC.touches d (pre ++ [c])).lastTouchTick) := by
  rw [List.length_append, List.length_cons] at hov
  have hA := RandomRRC.touches_last d pre c (by omega)
  have hB : ∀ mid c1, post = mid ++ [c1] →
      (RandomRRC.touches d (pre ++ c :: post)).lastTouchTick =
        (if 14 < d.refCount + (pre ++ c :: mid).length + 1 then c1 else 1) := by
    intro mid c1 hp
    have hlen : post.length = mid.length + 1 := by
      rw [hp, List.length_append, List.length_singleton]
    have hB1 := RandomRRC.touches_last d (pre ++ c :: mid) c1 (by
      rw [List.length_append, List.length_cons]
      omega)
    have hl : pre ++ c :: post = (pre ++ c :: mid) ++ [c1] := by
      rw [hp]
      simp
    rw [hl]
    exact hB1.2
  refine ⟨?_, ?_, fun hc hd => by
    rw [hA.2]
    rcases hd with hd | ⟨hd1, hd2⟩
    · split <;> omega
    · rw [if_pos (by omega)]
      exact hd2⟩
  · intro hp
    rw [hA.1] at hp
    refine ⟨?_, fun mid c1 hpost => ?_⟩
    · rw [hA.2, if_pos hp]
    · rw [hB mid c1 hpost, if_pos]
      rw [List.length_append, List.length_cons]
      omega
  · intro hc hsort
    rcases List.eq_nil_or_concat post with hnil | ⟨mid, c1, hpost0⟩
    · rw [hnil]
    · have hpost : post = mid ++ [c1] := by
        rw [hpost0, List.concat_eq_append]
      have hcc : c ≤ c1 := by
        have hmem : c1 ∈ post := by
          rw [hpost]
          simp
        exact List.rel_of_pairwise_cons hsort hmem
      rw [hA.2, hB mid c1 hpost]
      have hlen : (pre ++ c :: mid).length = pre.length + mid.length + 1 := by
        rw [List.length_append, List.length_cons]
        omega
      rw [hlen]
      by_cases h1 : 14 < d.refCount + pre.length + 1
      · rw [if_pos h1, if_pos (by omega)]
        exact hcc
      · rw [if_neg h1]
        split <;> omega

/-- C18, on a line installed and touched at the clocks 2 to 20: the
fifteenth touch, at clock 16, has promoted it, the touch at clock 20 sets
the time stamp to 20, and the time stamp after the touch at clock 9 is at
most the one after the touch at clock 20. -/
theorem promoted_line_stays_promoted_witness :
    (RandomRRC.touches ⟨1, 1⟩
        ([2, 3, 4, 5, 6, 7, 8, 9, 10, 11, 12, 13, 14, 15] ++
          16 :: [17, 18, 19, 20])).lastTouchTick = 20 ∧
      (RandomRRC.touches ⟨1, 1⟩ ([2, 3, 4, 5, 6, 7, 8] ++ [9])).lastTouchTick ≤
        (RandomRRC.touches ⟨1, 1⟩
          ([2, 3, 4, 5, 6, 7, 8] ++
            9 :: [10, 11, 12, 13, 14, 15, 16, 17, 18, 19, 20])).lastTouchTick :=
  ⟨((promoted_line_stays_promoted ⟨1, 1⟩ [2, 3, 4, 5, 6, 7, 8, 9, 10, 11, 12, 13, 14, 15]
      [17, 18, 19, 20] 16 (by decide)).1 (by decide)).2 [17, 18, 19] 20 rfl,
    (promoted_line_stays_promoted ⟨1, 1⟩ [2, 3, 4, 5, 6, 7, 8]
      [10, 11, 12, 13, 14, 15, 16, 17, 18, 19, 20] 9 (by decide)).2.1 (by decide) (by decide)⟩

/-- C20: in the fixed variant, whatever the line held, an install followed
by `k ≥ 1` touches (the last at clock `c`, no overflow of the counter)
leaves `refCount == k + 1`, and `lastTouchTick == c` if `k ≥ 14` and
`lastTouchTick == 1` if `k < 14`; the reference count is not 0 after an
install and any run of touches. -/
theorem install_then_touches (d : RandomReplData) (pre : List Nat) (c : Nat)
    (hov : (pre ++ [c]).length + 1 < 2 ^ 32) :
    (RandomRRC.touches (RandomRRC.reset d) (pre ++ [c])).refCount = (pre ++ [c]).length + 1 ∧
      (14 ≤ (pre ++ [c]).length →
        (RandomRRC.touches (RandomRRC.reset d) (pre ++ [c])).lastTouchTick = c) ∧
      ((pre ++ [c]).length < 14 →
        (RandomRRC.touches (RandomRRC.reset d) (pre ++ [c])).lastTouchTick = 1) ∧
      ∀ clocks : List Nat, clocks.length + 1 < 2 ^ 32 →
        (RandomRRC.touches (RandomRRC.reset d) clocks).refCount ≠ 0 := by
  rw [List.length_append, List.length_singleton] at hov ⊢
  have h := RandomRRC.touches_after_reset d pre c (by omega)
  refine ⟨h.1, fun hk => ?_, fun hk => ?_, fun clocks hc => ?_⟩
  · rw [h.2, if_pos hk]
  · rw [h.2, if_neg (by omega)]
  · have h0 : (RandomRRC.reset d).refCount = 1 := rfl
    rw [RandomRRC.touches_refCount _ _ (by rw [h0]; omega), h0]
    omega

/-- C20, on 13 and on 14 touches after an install. -/
theorem install_then_touches_witness :
    (RandomRRC.touches (RandomRRC.reset ⟨40, 9⟩)
        ([2, 3, 4, 5, 6, 7, 8, 9, 10, 11, 12, 13] ++ [14])).lastTouchTick = 1 ∧
      (RandomRRC.touches (RandomRRC.reset ⟨40, 9⟩)
        ([2, 3, 4, 5, 6, 7, 8, 9, 10, 11, 12, 13, 14] ++ [15])).lastTouchTick = 15 ∧
      (RandomRRC.touches (RandomRRC.reset ⟨40, 9⟩)
        ([2, 3, 4, 5, 6, 7, 8, 9, 10, 11, 12, 13, 14] ++ [15])).refCount = 15 :=
  ⟨(install_then_touches ⟨40, 9⟩ [2, 3, 4, 5, 6, 7, 8, 9, 10, 11, 12, 13] 14
      (by decide)).2.2.1 (by decide),
    (install_then_touches ⟨40, 9⟩ [2, 3, 4, 5, 6, 7, 8, 9, 10, 11, 12, 13, 14] 15
      (by decide)).2.1 (by decide),
    (install_then_touches ⟨40, 9⟩ [2, 3, 4, 5, 6, 7, 8, 9, 10, 11, 12, 13, 14] 15
      (by decide)).1⟩

/-! ## The reachable thresholds of the adaptive variant -/

/-- The adjustment keeps the threshold among 1, 5, 9, 13, 17, 21 and 25. -/
theorem Random.adjust_mem (a b : F32) (t : Nat) (ht : t ∈ [1, 5, 9, 13, 17, 21, 25]) :
    Random.adjust a b t ∈ [1, 5, 9, 13, 17, 21, 25] := by
  simp only [List.mem_cons, List.mem_singleton, List.not_mem_nil, or_false] at ht
  unfold Random.adjust
  rcases ht with h | h | h | h | h | h | h <;> subst h <;> cases F32.lt a b <;> decide

/-- Every call keeps the threshold among 1, 5, 9, 13, 17, 21 and 25. -/
theorem Random.call_threshold_mem (s : Shared) (c : Random.Call) (s1 : Shared)
    (ht : s.roi_threshold ∈ [1, 5, 9, 13, 17, 21, 25]) (h : Random.call s c = some s1) :
    s1.roi_threshold ∈ [1, 5, 9, 13, 17, 21, 25] := by
  cases c with
  | touch d t =>
    have h1 : s1 = (Random.touch s d t).1 := (Option.some.inj h).symm
    rw [h1]
    exact ht
  | reset d =>
    have h1 : s1 = Random.resetWindow (Random.resetInit s) := (Option.some.inj h).symm
    have h2 : (Random.resetInit s).roi_threshold ∈ [1, 5, 9, 13, 17, 21, 25] := by
      unfold Random.resetInit
      split
      · decide
      · exact ht
    rw [h1]
    unfold Random.resetWindow
    split
    · exact Random.adjust_mem _ _ _ h2
    · exact h2
  | invalidate d =>
    have h1 : s1 = s := (Option.some.inj h).symm
    rw [h1]
    exact ht
  | getVictim cs =>
    cases cs with
    | nil => cases h
    | cons c0 cs =>
      have h1 : s1 = { s with found_miss := (s.found_miss + 1) % 2 ^ 32 } :=
        (Option.some.inj h).symm
      rw [h1]
      exact ht

/-- The static members that the calls of `climbOpen` produce are
reachable. -/
theorem Random.reachable_climbOpen :
    Random.Reachable ⟨1, 10000000, 21, 513, F32.fin 14073747 (-46)⟩ :=
  ⟨Random.climbOpen, Random.run_climbOpen⟩

/-- C19: in the adaptive variant, in every state reachable from the initial
static members, `roi_threshold` is one of 1, 5, 9, 13, 17, 21, 25; so the
unsigned subtraction `roi_threshold - 4`, guarded by `roi_threshold > 1`,
runs only at values from 5 on and does not wrap, and the threshold is never
14, the constant of the fixed variant. -/
theorem threshold_lattice (s : Shared) (hs : Random.Reachable s) :
    s.roi_threshold ∈ [1, 5, 9, 13, 17, 21, 25] ∧
      (s.roi_threshold > 1 →
        5 ≤ s.roi_threshold ∧
          (s.roi_threshold + 2 ^ 32 - 4) % 2 ^ 32 = s.roi_threshold - 4) ∧
      s.roi_threshold ≠ 14 := by
  obtain ⟨calls, hrun⟩ := hs
  have hmem : s.roi_threshold ∈ [1, 5, 9, 13, 17, 21, 25] :=
    Random.run_invariant (fun s => s.roi_threshold ∈ [1, 5, 9, 13, 17, 21, 25])
      Random.call_threshold_mem calls Random.init s (by decide) hrun
  refine ⟨hmem, ?_, ?_⟩
  · simp only [List.mem_cons, List.mem_singleton, List.not_mem_nil, or_false] at hmem
    intro h1
    rcases hmem with h | h | h | h | h | h | h <;> rw [h] at h1 ⊢ <;> revert h1 <;> decide
  · simp only [List.mem_cons, List.mem_singleton, List.not_mem_nil, or_false] at hmem
    omega

/-- C19, on the static members after the calls of `climbOpen`, where the
threshold is 21. -/
theorem threshold_lattice_witness :
    (21 : Nat) ∈ [1, 5, 9, 13, 17, 21, 25] ∧
      ((21 : Nat) > 1 → 5 ≤ 21 ∧ (21 + 2 ^ 32 - 4) % 2 ^ 32 = 21 - 4) ∧ (21 : Nat) ≠ 14 :=
  threshold_lattice ⟨1, 10000000, 21, 513, F32.fin 14073747 (-46)⟩ Random.reachable_climbOpen

/-! ## Misses and accesses under the call order -/

/-- The calls of a run of hits are a run of touches. -/
theorem Random.accessCalls_hits (n : Nat) :
    Random.accessCalls (List.replicate n (Random.Access.hit instantiateEntry 2)) =
      Random.touchCalls n := by
  induction n with
  | zero => rfl
  | succ n ih =>
    rw [List.replicate_succ]
    unfold Random.accessCalls
    rw [ih]
    rfl

/-- The static members after the accesses of `wrapAccesses`: one miss is
counted and `found_access` has wrapped to 0. -/
theorem Random.run_wrapAccesses :
    Random.run Random.init (Random.accessCalls Random.wrapAccesses) =
      some ⟨1, 0, 1, 0, F32.zero⟩ := by
  have h1 : Random.run Random.init
      (Random.Access.miss [⟨0, instantiateEntry⟩] instantiateEntry).calls =
      some ⟨1, 1, 1, 0, F32.zero⟩ := rfl
  have h2 : Random.run ⟨1, 1, 1, 0, F32.zero⟩ (Random.touchCalls 4294967295) =
      some ⟨1, 0, 1, 0, F32.zero⟩ := by
    rw [Random.run_touchCalls _ _ (by decide)]
    rfl
  unfold Random.wrapAccesses Random.accessCalls
  rw [Random.accessCalls_hits]
  exact Random.run_append_some h1 h2

/-- C15 fails as stated: one miss (a victim selection followed by its
install) and then `2 ^ 32 - 1` hits keep the call order and end, after a
touch, with `found_miss == 1` above `found_access == 0`, the 32-bit counter
having wrapped. -/
theorem miss_exceeds_access_after_wrap :
    ∃ s, Random.run Random.init (Random.accessCalls Random.wrapAccesses) = some s ∧
      s.found_miss = 1 ∧ s.found_access = 0 ∧ ¬ s.found_miss ≤ s.found_access :=
  ⟨_, Random.run_wrapAccesses, rfl, rfl, by decide⟩

/-- The static members that `getVictim` hands on: only `found_miss` has
changed. -/
theorem Random.getVictim_shared (s s0 : Shared) (cs : List ReplaceableEntry)
    (v : ReplaceableEntry) (h : Random.getVictim s cs = some (s0, v)) :
    s0 = { s with found_miss := (s.found_miss + 1) % 2 ^ 32 } := by
  cases cs with
  | nil => cases h
  | cons c0 cs => exact (congrArg Prod.fst (Option.some.inj h)).symm

/-- The first conditional of `reset` right after a victim selection, under
the call order and short of a wrap of `found_access`: the miss count is at
most the access count. -/
theorem Random.resetInit_miss_le (s : Shared) (cs : List ReplaceableEntry)
    (d : RandomReplData) (hI : s.found_miss ≤ s.found_access)
    (hw : (Random.Access.miss cs d).wraps s = false) :
    (Random.resetInit { s with found_miss := (s.found_miss + 1) % 2 ^ 32 }).found_miss ≤
      (Random.resetInit { s with found_miss := (s.found_miss + 1) % 2 ^ 32 }).found_access := by
  have hw1 : ¬ (¬ (s.init_flag ≠ 513 ∧ s.found_access > 10000000) ∧
      2 ^ 32 ≤ s.found_access + 1) := by
    unfold Random.Access.wraps at hw
    exact of_decide_eq_false hw
  by_cases hc : s.init_flag ≠ 513 ∧ s.found_access > 10000000
  · rw [Random.resetInit_cold { s with found_miss := (s.found_miss + 1) % 2 ^ 32 } hc.1 hc.2]
    decide
  · rw [Random.resetInit_count { s with found_miss := (s.found_miss + 1) % 2 ^ 32 } hc]
    have h1 : s.found_access + 1 < 2 ^ 32 := by
      by_contra h2
      exact hw1 ⟨hc, by omega⟩
    have h2 : (s.found_miss + 1) % 2 ^ 32 ≤ s.found_miss + 1 := Nat.mod_le _ _
    show (s.found_miss + 1) % 2 ^ 32 ≤ (s.found_access + 1) % 2 ^ 32
    rw [Nat.mod_eq_of_lt h1]
    omega

/-- The second conditional of `reset` keeps the miss count at most the
access count. -/
theorem Random.resetWindow_miss_le (s : Shared) (hI : s.found_miss ≤ s.found_access) :
    (Random.resetWindow s).found_miss ≤ (Random.resetWindow s).found_access := by
  unfold Random.resetWindow
  split
  · exact Nat.le_refl 0
  · exact hI

/-- One access that does not wrap `found_access` keeps the miss count at
most the access count. -/
theorem Random.access_keeps_miss_le (s s1 : Shared) (a : Random.Access)
    (hI : s.found_miss ≤ s.found_access) (hw : a.wraps s = false)
    (h : Random.run s a.calls = some s1) : s1.found_miss ≤ s1.found_access := by
  cases a with
  | hit d t =>
    have h1 : s1 = (Random.touch s d t).1 := (Option.some.inj h).symm
    have hw1 : s.found_access + 1 < 2 ^ 32 := by
      unfold Random.Access.wraps at hw
      exact Nat.lt_of_not_le (of_decide_eq_false hw)
    rw [h1]
    show s.found_miss ≤ (s.found_access + 1) % 2 ^ 32
    rw [Nat.mod_eq_of_lt hw1]
    omega
  | invalidate d =>
    have h1 : s1 = s := (Option.some.inj h).symm
    rw [h1]
    exact hI
  | miss cs d =>
    cases cs with
    | nil => cases h
    | cons c0 cs =>
      have h1 : s1 = Random.resetWindow
          (Random.resetInit { s with found_miss := (s.found_miss + 1) % 2 ^ 32 }) :=
        (Option.some.inj h).symm
      rw [h1]
      exact Random.resetWindow_miss_le _ (Random.resetInit_miss_le s (c0 :: cs) d hI hw)

/-- A sequence of accesses none of which wraps `found_access` keeps the
miss count at most the access count. -/
theorem Random.accesses_keep_miss_le (as : List Random.Access) (s s1 : Shared)
    (hI : s.found_miss ≤ s.found_access) (hnw : Random.noWrap s as = true)
    (h : Random.run s (Random.accessCalls as) = some s1) :
    s1.found_miss ≤ s1.found_access := by
  induction as generalizing s with
  | nil =>
    have h1 : s = s1 := Option.some.inj h
    rw [← h1]
    exact hI
  | cons a as ih =>
    unfold Random.accessCalls at h
    rw [Random.run_append] at h
    unfold Random.noWrap at hnw
    cases hr : Random.run s a.calls with
    | none =>
      rw [hr] at h
      cases h
    | some s2 =>
      rw [hr] at h hnw
      have hnw1 : a.wraps s = false ∧ Random.noWrap s2 as = true := by
        simpa using hnw
      exact ih s2 (Random.access_keeps_miss_le s s2 a hI hnw1.1 hr) hnw1.2 h

/-- C15 as amended: in the adaptive variant, for every sequence of accesses
from the initial static members that keeps the call order (every victim
selection immediately followed by its install, hits and invalidations in
between) and in which no touch or install wraps the 32-bit `found_access`,
`found_miss ≤ found_access` holds after every touch, invalidation and
install, and at every division of the next miss, where the exact ratio of
the two counters lies between 0 and 1. -/
theorem miss_le_access_without_wrap (as : List Random.Access) (s : Shared)
    (hnw : Random.noWrap Random.init as = true)
    (hrun : Random.run Random.init (Random.accessCalls as) = some s) :
    s.found_miss ≤ s.found_access ∧
      ∀ cs d s0 v n, (Random.Access.miss cs d).wraps s = false →
        Random.getVictim s cs = some (s0, v) → Random.resetDivisor s0 = some n →
        n = (Random.resetInit s0).found_access ∧
          (Random.resetInit s0).found_miss ≤ n ∧ 0 < n ∧
          0 ≤ ((Random.resetInit s0).found_miss : ℚ) / (n : ℚ) ∧
          ((Random.resetInit s0).found_miss : ℚ) / (n : ℚ) ≤ 1 := by
  have hI : s.found_miss ≤ s.found_access :=
    Random.accesses_keep_miss_le as Random.init s (Nat.le_refl 0) hnw hrun
  refine ⟨hI, fun cs d s0 v n hw hg hd => ?_⟩
  have hs0 := Random.getVictim_shared s s0 cs v hg
  have hle := Random.resetInit_miss_le s cs d hI hw
  rw [← hs0] at hle
  have hn : n = (Random.resetInit s0).found_access ∧ 10000000 < n := by
    unfold Random.resetDivisor at hd
    by_cases hc : (Random.resetInit s0).init_flag = 513 ∧
        (Random.resetInit s0).found_access > 10000000
    · simp only [if_pos hc] at hd
      have h1 : n = (Random.resetInit s0).found_access := (Option.some.inj hd).symm
      exact ⟨h1, by rw [h1]; exact hc.2⟩
    · simp only [if_neg hc] at hd
      cases hd
  have hpos : 0 < n := by omega
  have hle2 : (Random.resetInit s0).found_miss ≤ n := by
    rw [hn.1]
    exact hle
  have hq : (0 : ℚ) < (n : ℚ) := by exact_mod_cast hpos
  refine ⟨hn.1, hle2, hpos, div_nonneg (Nat.cast_nonneg _) (le_of_lt hq), ?_⟩
  rw [div_le_one hq]
  exact_mod_cast hle2

/-- C15 as amended, on a miss, a hit and an invalidation from the initial
static members. -/
theorem miss_le_access_without_wrap_witness :
    (⟨1, 2, 1, 0, F32.zero⟩ : Shared).found_miss ≤ (⟨1, 2, 1, 0, F32.zero⟩ : Shared).found_access :=
  (miss_le_access_without_wrap
    [Random.Access.miss [⟨0, instantiateEntry⟩] instantiateEntry,
      Random.Access.hit instantiateEntry 2, Random.Access.invalidate instantiateEntry]
    ⟨1, 2, 1, 0, F32.zero⟩ (by decide) rfl).1
